import Mathlib

/-!
Shallow embedding of the algorithmic core of the movie-editor repository.

Numeric values are modelled by `ℚ` (Python floats carry exact decimal
literals in every claim considered here), machine integers by `ℤ`/`ℕ`.

Source files embedded:
* `src/service/segment/main.py` (`Segment`, `bools_to_segments`,
  `clamp_segments`) and the behaviourally identical
  `src/service/segment_service.py` (`SegmentService`);
* `src/service/editing_movie/carculate_sampling.py` (`get_effective_fps`),
  identical to `VideoService._get_effective_fps` and `_calculate_sampling`;
* `src/service/cropping.py` (`_calculate_crop_position`), identical to the
  inline boundary correction of `crop_to_hand_center`;
* `src/model/landmark_detector/base.py` (`_select_best_detection`,
  `detect_mask`, `detect_positions_and_sizes`, `smooth_positions`);
* `src/service/zoom_service.py` (`_calculate_auto_zoom_ratio`), identical to
  `calculate_auto_zoom_ratio` in `src/service/masking/hand.py`.
-/

/-- `Segment` from `src/service/segment/main.py` (dataclass with `start`/`end`
in seconds; the field `end` is renamed `stop` because `end` is a Lean
keyword). -/
structure Segment where
  start : ℚ
  stop : ℚ
deriving DecidableEq, Repr

/-- Length of the leading run of `true` values: the inner
`while j < n and mask[j]: j += 1` loop of the run-length decoder, counted
relative to the current position. -/
def countLeading : List Bool → ℕ
  | true :: rest => countLeading rest + 1
  | _ => 0

/-- The outer `while i < n` scan of `_convert_mask_to_raw_segments` /
`bools_to_segments`: at each `true` at absolute index `k` the run extends to
the exclusive index `k + countLeading rest + 1`, and the scan resumes there
(`i = j` in the source). -/
def runsAux (mask : List Bool) (k : ℕ) : List (ℕ × ℕ) :=
  match mask with
  | [] => []
  | false :: rest => runsAux rest (k + 1)
  | true :: rest =>
      (k, k + countLeading rest + 1) ::
        runsAux (rest.drop (countLeading rest)) (k + countLeading rest + 1)
termination_by mask.length
decreasing_by
  · simp
  · simp [List.length_drop]; omega

/-- `SegmentService._convert_mask_to_raw_segments` (also the first loop of
`bools_to_segments`): each run of `true` at indices `[i, j)` becomes the
segment `(i / fps, j / fps)`. -/
def convert_mask_to_raw_segments (mask : List Bool) (fps : ℚ) : List Segment :=
  (runsAux mask 0).map (fun r => ⟨(r.1 : ℚ) / fps, (r.2 : ℚ) / fps⟩)

/-- `SegmentService._filter_short_segments` (also the list comprehension
`[s for s in segments if (s.end - s.start) >= min_keep_sec]`). -/
def filter_short_segments (segments : List Segment) (min_keep_sec : ℚ) :
    List Segment :=
  segments.filter (fun s => min_keep_sec ≤ s.stop - s.start)

/-- The `for segment in segments[1:]` loop of
`SegmentService._merge_close_segments`, carrying the running segment
`current`. -/
def mergeAux (current : Segment) (rest : List Segment) (merge_gap_sec : ℚ) :
    List Segment :=
  match rest with
  | [] => [current]
  | s :: rest' =>
      if s.start - current.stop ≤ merge_gap_sec then
        mergeAux ⟨current.start, s.stop⟩ rest' merge_gap_sec
      else
        current :: mergeAux s rest' merge_gap_sec

/-- `SegmentService._merge_close_segments` (also the merge loop of
`bools_to_segments`). -/
def merge_close_segments (segments : List Segment) (merge_gap_sec : ℚ) :
    List Segment :=
  match segments with
  | [] => []
  | s :: rest => mergeAux s rest merge_gap_sec

/-- `SegmentService._add_padding` (also the final comprehension of
`bools_to_segments`). -/
def add_padding (segments : List Segment) (pad_sec : ℚ) : List Segment :=
  segments.map (fun s => ⟨max 0 (s.start - pad_sec), s.stop + pad_sec⟩)

/-- `SegmentService.create_segments_from_mask`, the composition of the four
stages; `bools_to_segments` in `src/service/segment/main.py` inlines exactly
the same four stages in the same order. -/
def create_segments_from_mask (mask : List Bool) (fps min_keep_sec pad_sec
    merge_gap_sec : ℚ) : List Segment :=
  add_padding
    (merge_close_segments
      (filter_short_segments (convert_mask_to_raw_segments mask fps)
        min_keep_sec)
      merge_gap_sec)
    pad_sec

/-- `clamp_segments` from `src/service/segment/main.py`, identical to
`SegmentService.clamp_segments_to_duration`: clamp both endpoints into
`[0, duration]` and keep a segment only when the clamped end exceeds the
clamped start. -/
def clamp_segments (segments : List Segment) (duration : ℚ) : List Segment :=
  match segments with
  | [] => []
  | s :: rest =>
      let start := max 0 (min s.start duration)
      let stop := max 0 (min s.stop duration)
      if start < stop then ⟨start, stop⟩ :: clamp_segments rest duration
      else clamp_segments rest duration

/-- Python's built-in `round` on an exact value: round half to even
(banker's rounding), as applied to `original_fps / sampling_fps` in the
sampling computation. -/
def pyRound (q : ℚ) : ℤ :=
  let n := ⌊q⌋
  let f := q - n
  if f < 1 / 2 then n
  else if 1 / 2 < f then n + 1
  else if n % 2 = 0 then n else n + 1

/-- Python's `int(...)` truncation toward zero on an exact value, used for
the final `int(x1), int(y1)` of the crop placement. -/
def pyInt (q : ℚ) : ℤ := if 0 ≤ q then ⌊q⌋ else ⌈q⌉

/-- `get_effective_fps` from `src/service/editing_movie/carculate_sampling.py`
(identical to `VideoService._get_effective_fps` and to `_calculate_sampling`
in `src/service/masking/hand.py`): returns `(step, effective_fps)`. -/
def get_effective_fps (original_fps : ℚ) (sampling_fps : ℚ) : ℤ × ℚ :=
  if 0 < original_fps then
    let step := max 1 (pyRound (original_fps / sampling_fps))
    (step, original_fps / (step : ℚ))
  else
    (1, sampling_fps)

/-- The two anchor-ratio fields of `CroppingConfig`
(`src/model/config/cropping_config.py`) consumed by
`_calculate_crop_position`. -/
structure CroppingConfig where
  landmark_horizontal_ratio : ℚ
  landmark_vertical_ratio : ℚ
deriving Repr

/-- `_calculate_crop_position` from `src/service/cropping.py`; the inline
boundary correction of `crop_to_hand_center` in
`src/service/crop/cropping.py` performs the identical computation (there the
truncation `int(x1), int(y1)` happens at the `cropped(...)` call site).
Returns `(int(x1), int(y1), adjusted)`. -/
def calculate_crop_position (cx cy : ℚ) (crop_w crop_h orig_w orig_h : ℤ)
    (config : CroppingConfig) : ℤ × ℤ × Bool :=
  let x1 : ℚ := cx - (crop_w : ℚ) * config.landmark_horizontal_ratio
  let y1 : ℚ := cy - (crop_h : ℚ) * config.landmark_vertical_ratio
  let px : ℚ × Bool :=
    if x1 < 0 then (0, true)
    else if (orig_w : ℚ) < x1 + (crop_w : ℚ) then (((orig_w - crop_w : ℤ) : ℚ), true)
    else (x1, false)
  let py : ℚ × Bool :=
    if y1 < 0 then (0, true)
    else if (orig_h : ℚ) < y1 + (crop_h : ℚ) then (((orig_h - crop_h : ℤ) : ℚ), true)
    else (y1, px.2)
  (pyInt px.1, pyInt py.1, py.2)

/-- `smooth_positions` window extraction: the valid (non-`None`) positions at
indices in `[max(0, i - window_size // 2), min(len, i + window_size // 2 + 1))`
(Python floor division on the non-negative `window_size` is `ℕ` division;
`max(0, ·)` is `ℕ` truncated subtraction). -/
def validWindow (positions : List (Option (ℚ × ℚ))) (i window_size : ℕ) :
    List (ℚ × ℚ) :=
  let s := i - window_size / 2
  let e := min positions.length (i + window_size / 2 + 1)
  (List.range' s (e - s)).filterMap (fun j => positions.getD j none)

/-- Componentwise arithmetic mean of a list of positions:
`sum(p[0] for p in valid) / len(valid)` and likewise for `p[1]`. -/
def meanQ (l : List (ℚ × ℚ)) : ℚ × ℚ :=
  ((l.map Prod.fst).sum / (l.length : ℚ), (l.map Prod.snd).sum / (l.length : ℚ))

/-- The per-index body of the `smooth_positions` loop: `None` stays `None`;
otherwise average the valid positions in the clipped window, falling back to
the original value when no valid position exists in the window. -/
def smoothAt (positions : List (Option (ℚ × ℚ))) (window_size i : ℕ) :
    Option (ℚ × ℚ) :=
  match positions.getD i none with
  | none => none
  | some pos =>
      match validWindow positions i window_size with
      | [] => some pos
      | v :: vs => some (meanQ (v :: vs))

/-- `smooth_positions` from `src/model/landmark_detector/base.py`, identical
to the copy in `src/service/masking/hand.py`. -/
def smooth_positions (positions : List (Option (ℚ × ℚ)))
    (window_size : ℕ) : List (Option (ℚ × ℚ)) :=
  (List.range positions.length).map (smoothAt positions window_size)

/-- `_calculate_auto_zoom_ratio` from `src/service/zoom_service.py`,
identical to `calculate_auto_zoom_ratio` in `src/service/masking/hand.py`.
`math.sqrt` is modelled by an arbitrary function `sqrtFn : ℚ → ℚ` passed as
a parameter: the claims about this function concern only the `[0.2, 0.9]`
clamp and the `0.5` fallback, which hold for every value of the square
root. -/
def calculate_auto_zoom_ratio (sqrtFn : ℚ → ℚ)
    (sizes : List (Option (ℚ × ℚ))) (target_ratio : ℚ) : ℚ :=
  let valid_areas := sizes.filterMap (fun s => s.map (fun wh => wh.1 * wh.2))
  match valid_areas with
  | [] => 1 / 2
  | a :: rest =>
      let sorted := (a :: rest).mergeSort (fun x y => decide (x ≤ y))
      let median_area := sorted.getD ((a :: rest).length / 2) 0
      let crop_ratio := sqrtFn (median_area / target_ratio)
      max (1 / 5) (min (9 / 10) crop_ratio)

/-- `BoundingBox` from `src/model/bouding_box.py` (fields consumed by the
detector pipeline). -/
structure BoundingBox where
  x_min : ℚ
  y_min : ℚ
  x_max : ℚ
  y_max : ℚ
  width : ℚ
  height : ℚ
  area : ℚ
  center_x : ℚ
  center_y : ℚ
deriving DecidableEq, Repr

/-- `LandmarkDetector._is_valid_detection` (base-class default):
`bounding_box.area >= min_area_ratio`. -/
def is_valid_detection (b : BoundingBox) (min_area_ratio : ℚ) : Bool :=
  min_area_ratio ≤ b.area

/-- The loop of `LandmarkDetector._select_best_detection`; `best = none`
models the initial `best_detection = None, best_key = -inf` state (any key
beats `-inf`, so the first valid box always replaces `none`). The abstract
method `_get_selection_key` is the parameter `key`. -/
def selectBestAux (key : BoundingBox → ℚ) (min_area_ratio : ℚ)
    (boxes : List BoundingBox) (best : Option (BoundingBox × ℚ)) :
    Option BoundingBox :=
  match boxes with
  | [] => best.map Prod.fst
  | b :: rest =>
      if is_valid_detection b min_area_ratio then
        match best with
        | none => selectBestAux key min_area_ratio rest (some (b, key b))
        | some (bb, bk) =>
            if bk < key b then
              selectBestAux key min_area_ratio rest (some (b, key b))
            else selectBestAux key min_area_ratio rest (some (bb, bk))
      else selectBestAux key min_area_ratio rest best

/-- `LandmarkDetector._select_best_detection`. -/
def select_best_detection (key : BoundingBox → ℚ) (min_area_ratio : ℚ)
    (boxes : List BoundingBox) : Option BoundingBox :=
  selectBestAux key min_area_ratio boxes none

/-- One frame's observation as yielded by `_process_video_frames`:
`none` when the detector produced no result, otherwise the list of bounding
boxes. -/
abbrev FrameObservation := Option (List BoundingBox)

/-- The per-frame body of `LandmarkDetector.detect_mask`: `has_detection`
is true iff some box in the frame is a valid detection. -/
def maskBit (min_area_ratio : ℚ) (obs : FrameObservation) : Bool :=
  match obs with
  | none => false
  | some boxes => boxes.any (fun b => is_valid_detection b min_area_ratio)

/-- `LandmarkDetector.detect_mask`, restricted to its pure per-frame logic
over the observation sequence. -/
def detect_mask (min_area_ratio : ℚ) (frames : List FrameObservation) :
    List Bool :=
  frames.map (maskBit min_area_ratio)

/-- The per-frame body of `LandmarkDetector.detect_positions_and_sizes`:
the selected best detection's center, or `none`. -/
def positionBit (key : BoundingBox → ℚ) (min_area_ratio : ℚ)
    (obs : FrameObservation) : Option (ℚ × ℚ) :=
  match obs with
  | none => none
  | some boxes =>
      (select_best_detection key min_area_ratio boxes).map
        (fun b => (b.center_x, b.center_y))

/-- The positions series of `LandmarkDetector.detect_positions_and_sizes`,
restricted to its pure per-frame logic over the observation sequence. -/
def detect_positions (key : BoundingBox → ℚ) (min_area_ratio : ℚ)
    (frames : List FrameObservation) : List (Option (ℚ × ℚ)) :=
  frames.map (positionBit key min_area_ratio)

/-- A maximal run of `true` in `mask` at indices `[i, j)` (`j` exclusive):
non-empty, inside the mask, all `true`, and not extendable on either side. -/
def IsMaxRun (mask : List Bool) (i j : ℕ) : Prop :=
  i < j ∧ j ≤ mask.length ∧
  (∀ t, i ≤ t → t < j → mask.getD t false = true) ∧
  (i = 0 ∨ mask.getD (i - 1) false = false) ∧
  (j = mask.length ∨ mask.getD j false = false)

lemma countLeading_le_length (l : List Bool) : countLeading l ≤ l.length := by
  induction l with
  | nil => simp [countLeading]
  | cons b rest ih =>
      cases b <;> simp [countLeading] <;> try omega

lemma countLeading_true (l : List Bool) :
    ∀ t, t < countLeading l → l.getD t false = true := by
  induction l with
  | nil => simp [countLeading]
  | cons b rest ih =>
      cases b with
      | false => simp [countLeading]
      | true =>
          intro t ht
          cases t with
          | zero => simp
          | succ t' =>
              simp only [List.getD_cons_succ]
              exact ih t' (by simpa [countLeading] using ht)

lemma countLeading_stop (l : List Bool) :
    countLeading l = l.length ∨ l.getD (countLeading l) false = false := by
  induction l with
  | nil => left; simp [countLeading]
  | cons b rest ih =>
      cases b with
      | false => right; simp [countLeading]
      | true =>
          rcases ih with h | h
          · left; simp [countLeading, h]
          · right; simpa [countLeading] using h

lemma le_countLeading (l : List Bool) (m : ℕ)
    (hm : m ≤ l.length) (ht : ∀ t, t < m → l.getD t false = true) :
    m ≤ countLeading l := by
  induction l generalizing m with
  | nil => simp at hm; omega
  | cons b rest ih =>
      cases m with
      | zero => exact Nat.zero_le _
      | succ m' =>
          have hb : b = true := by simpa using ht 0 (Nat.succ_pos _)
          subst hb
          have : m' ≤ countLeading rest := by
            refine ih m' (by simpa using hm) ?_
            intro t htm
            simpa using ht (t + 1) (by omega)
          simp [countLeading]; omega

lemma getD_tail_of_pos (b : Bool) (rest : List Bool) (t : ℕ) (ht : 1 ≤ t) :
    (b :: rest).getD t false = rest.getD (t - 1) false := by
  cases t with
  | zero => omega
  | succ t' => simp

lemma getD_drop (l : List Bool) (n m : ℕ) (d : Bool) :
    (l.drop n).getD m d = l.getD (n + m) d := by
  induction n generalizing l with
  | zero => simp
  | succ n' ih =>
      cases l with
      | nil => simp
      | cons a l' =>
          simp only [List.drop_succ_cons, Nat.succ_add, List.getD_cons_succ]
          exact ih l'

lemma runs_mem_of_isMaxRun :
    ∀ (n : ℕ) (mask : List Bool), mask.length ≤ n →
      ∀ (k i j : ℕ), IsMaxRun mask i j → (k + i, k + j) ∈ runsAux mask k := by
  intro n
  induction n with
  | zero =>
      intro mask hlen k i j hrun
      obtain ⟨hij, hjlen, -, -, -⟩ := hrun
      omega
  | succ n ih =>
      intro mask hlen k i j hrun
      obtain ⟨hij, hjlen, hall, hleft, hright⟩ := hrun
      match mask with
      | [] => simp at hjlen; omega
      | false :: rest =>
          have hi : 1 ≤ i := by
            by_contra h
            have hi0 : i = 0 := by omega
            have := hall 0 (by omega) (by omega)
            simp [hi0] at this
          have hrun' : IsMaxRun rest (i - 1) (j - 1) := by
            refine ⟨by omega, by simp at hjlen; omega, ?_, ?_, ?_⟩
            · intro t ht1 ht2
              have := hall (t + 1) (by omega) (by omega)
              simpa using this
            · rcases Nat.eq_or_lt_of_le hi with h1 | h1
              · left; omega
              · right
                rcases hleft with h | h
                · omega
                · rw [getD_tail_of_pos false rest (i - 1) (by omega)] at h
                  have : i - 1 - 1 = i - 2 := by omega
                  rw [this] at h
                  have : i - 1 - 1 = i - 2 := by omega
                  rw [this]
                  exact h
            · rcases hright with h | h
              · left; simp at h ⊢; omega
              · right
                rw [getD_tail_of_pos false rest j (by omega)] at h
                exact h
          have hmem := ih rest (by simp at hlen; omega) (k + 1) (i - 1) (j - 1) hrun'
          have e1 : k + 1 + (i - 1) = k + i := by omega
          have e2 : k + 1 + (j - 1) = k + j := by omega
          rw [e1, e2] at hmem
          simpa [runsAux] using hmem
      | true :: rest =>
          by_cases hi0 : i = 0
          · subst hi0
            have h1 : j - 1 ≤ countLeading rest := by
              apply le_countLeading
              · simp at hjlen; omega
              · intro t ht
                have := hall (t + 1) (by omega) (by omega)
                simpa using this
            have h2 : countLeading rest ≤ j - 1 := by
              rcases hright with h | h
              · have := countLeading_le_length rest
                simp at h; omega
              · by_contra hc
                push_neg at hc
                have htr := countLeading_true rest (j - 1) hc
                rw [getD_tail_of_pos true rest j (by omega), htr] at h
                simp at h
            have hj : j = countLeading rest + 1 := by omega
            rw [hj]
            simp only [runsAux, List.mem_cons]
            left
            rw [Prod.mk.injEq]
            omega
          · have hi1 : 1 ≤ i := by omega
            have hfalse : (true :: rest).getD (i - 1) false = false :=
              hleft.resolve_left hi0
            have hige : countLeading rest + 2 ≤ i := by
              by_contra hc
              push_neg at hc
              have htrue : (true :: rest).getD (i - 1) false = true := by
                rcases Nat.eq_or_lt_of_le hi1 with h1 | h1
                · rw [← h1]; simp
                · rw [getD_tail_of_pos true rest (i - 1) (by omega)]
                  exact countLeading_true rest (i - 1 - 1) (by omega)
              rw [hfalse] at htrue
              simp at htrue
            have hlen' : (rest.drop (countLeading rest)).length ≤ n := by
              rw [List.length_drop]; simp at hlen; omega
            have hrun' : IsMaxRun (rest.drop (countLeading rest))
                (i - countLeading rest - 1) (j - countLeading rest - 1) := by
              refine ⟨by omega, ?_, ?_, ?_, ?_⟩
              · rw [List.length_drop]; simp at hjlen; omega
              · intro t ht1 ht2
                rw [getD_drop]
                have := hall (countLeading rest + t + 1) (by omega) (by omega)
                simpa using this
              · right
                rw [getD_drop]
                have e : countLeading rest + (i - countLeading rest - 1 - 1)
                    = i - 1 - 1 := by omega
                rw [e]
                rw [getD_tail_of_pos true rest (i - 1) (by omega)] at hfalse
                exact hfalse
              · rcases hright with h | h
                · left
                  rw [List.length_drop]; simp at h; omega
                · right
                  rw [getD_drop]
                  have e : countLeading rest + (j - countLeading rest - 1)
                      = j - 1 := by omega
                  rw [e]
                  rw [getD_tail_of_pos true rest j (by omega)] at h
                  exact h
            have hmem := ih (rest.drop (countLeading rest)) hlen'
              (k + countLeading rest + 1) (i - countLeading rest - 1)
              (j - countLeading rest - 1) hrun'
            have e1 : k + countLeading rest + 1 + (i - countLeading rest - 1)
                = k + i := by omega
            have e2 : k + countLeading rest + 1 + (j - countLeading rest - 1)
                = k + j := by omega
            rw [e1, e2] at hmem
            simp only [runsAux, List.mem_cons]
            right
            exact hmem

lemma runs_bounds :
    ∀ (n : ℕ) (mask : List Bool), mask.length ≤ n →
      ∀ (k : ℕ) (r : ℕ × ℕ), r ∈ runsAux mask k →
        k ≤ r.1 ∧ r.1 < r.2 ∧ r.2 ≤ k + mask.length ∧
          mask.getD (r.1 - k) false = true := by
  intro n
  induction n with
  | zero =>
      intro mask hlen k r hr
      match mask with
      | [] => simp [runsAux] at hr
  | succ n ih =>
      intro mask hlen k r hr
      match mask with
      | [] => simp [runsAux] at hr
      | false :: rest =>
          simp only [runsAux] at hr
          obtain ⟨h1, h2, h3, h4⟩ := ih rest (by simp at hlen; omega) (k + 1) r hr
          refine ⟨by omega, h2, by simp; omega, ?_⟩
          rw [getD_tail_of_pos false rest (r.1 - k) (by omega)]
          have e : r.1 - k - 1 = r.1 - (k + 1) := by omega
          rw [e]
          exact h4
      | true :: rest =>
          simp only [runsAux, List.mem_cons] at hr
          rcases hr with hr | hr
          · subst hr
            refine ⟨le_refl _, by simp; omega, ?_, by simp⟩
            have := countLeading_le_length rest
            simp
            omega
          · obtain ⟨h1, h2, h3, h4⟩ := ih (rest.drop (countLeading rest))
              (by rw [List.length_drop]; simp at hlen; omega)
              (k + countLeading rest + 1) r hr
            rw [getD_drop] at h4
            rw [List.length_drop] at h3
            have hcl := countLeading_le_length rest
            refine ⟨by omega, h2, by simp; omega, ?_⟩
            rw [getD_tail_of_pos true rest (r.1 - k) (by omega)]
            have e : r.1 - k - 1
                = countLeading rest + (r.1 - (k + countLeading rest + 1)) := by
              omega
            rw [e]
            exact h4

lemma runs_pairwise :
    ∀ (n : ℕ) (mask : List Bool), mask.length ≤ n → ∀ (k : ℕ),
      (runsAux mask k).Pairwise (fun r s => r.2 < s.1) := by
  intro n
  induction n with
  | zero =>
      intro mask hlen k
      match mask with
      | [] => simp [runsAux]
  | succ n ih =>
      intro mask hlen k
      match mask with
      | [] => simp [runsAux]
      | false :: rest =>
          simp only [runsAux]
          exact ih rest (by simp at hlen; omega) (k + 1)
      | true :: rest =>
          have hlen' : (rest.drop (countLeading rest)).length ≤ n := by
            rw [List.length_drop]; simp at hlen; omega
          simp only [runsAux]
          rw [List.pairwise_cons]
          refine ⟨?_, ih _ hlen' _⟩
          intro r hr
          obtain ⟨h1, h2, h3, h4⟩ := runs_bounds n (rest.drop (countLeading rest))
            hlen' (k + countLeading rest + 1) r hr
          rcases Nat.eq_or_lt_of_le h1 with he | hlt
          · exfalso
            have h0 : r.1 - (k + countLeading rest + 1) = 0 := by omega
            rw [h0, getD_drop, Nat.add_zero] at h4
            rcases countLeading_stop rest with hs | hs
            · rw [List.getD_eq_default] at h4
              · simp at h4
              · omega
            · rw [hs] at h4
              simp at h4
          · exact hlt

/-- Adjacent gap property carried through the segment pipeline. -/
def SepBy (s t : Segment) : Prop := s.stop < t.start

lemma raw_pairwise (mask : List Bool) (fps : ℚ) (hfps : 0 < fps) :
    (convert_mask_to_raw_segments mask fps).Pairwise SepBy := by
  rw [convert_mask_to_raw_segments, List.pairwise_map]
  refine (runs_pairwise mask.length mask le_rfl 0).imp ?_
  intro r s h
  unfold SepBy
  simp only
  gcongr

lemma raw_wellformed (mask : List Bool) (fps : ℚ) (hfps : 0 < fps) :
    ∀ s ∈ convert_mask_to_raw_segments mask fps, s.start < s.stop := by
  intro s hs
  rw [convert_mask_to_raw_segments, List.mem_map] at hs
  obtain ⟨r, hr, hrs⟩ := hs
  obtain ⟨-, h2, -, -⟩ := runs_bounds mask.length mask le_rfl 0 r hr
  subst hrs
  simp only
  gcongr

lemma filter_short_mem (segments : List Segment) (min_keep_sec : ℚ) :
    ∀ s ∈ filter_short_segments segments min_keep_sec,
      s ∈ segments ∧ min_keep_sec ≤ s.stop - s.start := by
  intro s hs
  rw [filter_short_segments, List.mem_filter] at hs
  exact ⟨hs.1, by simpa using hs.2⟩

lemma mergeAux_start_mem (gap : ℚ) :
    ∀ (rest : List Segment) (cur u : Segment), u ∈ mergeAux cur rest gap →
      u.start = cur.start ∨ ∃ t ∈ rest, u.start = t.start := by
  intro rest
  induction rest with
  | nil =>
      intro cur u hu
      simp [mergeAux] at hu
      simp [hu]
  | cons s rest' ih =>
      intro cur u hu
      rw [mergeAux] at hu
      by_cases hc : s.start - cur.stop ≤ gap
      · rw [if_pos hc] at hu
        rcases ih _ u hu with h | ⟨t, ht, hts⟩
        · left; exact h
        · right; exact ⟨t, List.mem_cons_of_mem _ ht, hts⟩
      · rw [if_neg hc, List.mem_cons] at hu
        rcases hu with hu | hu
        · left; rw [hu]
        · rcases ih _ u hu with h | ⟨t, ht, hts⟩
          · right; exact ⟨s, List.mem_cons_self _ _, h⟩
          · right; exact ⟨t, List.mem_cons_of_mem _ ht, hts⟩

lemma mergeAux_good (gap : ℚ) :
    ∀ (rest : List Segment) (cur : Segment), cur.start < cur.stop →
      (∀ t ∈ rest, t.start < t.stop) → (cur :: rest).Pairwise SepBy →
      (mergeAux cur rest gap).Pairwise SepBy ∧
        ∀ u ∈ mergeAux cur rest gap, u.start < u.stop := by
  intro rest
  induction rest with
  | nil =>
      intro cur hcur _ _
      constructor
      · simp [mergeAux]
      · intro u hu
        simp [mergeAux] at hu
        rw [hu]
        exact hcur
  | cons s rest' ih =>
      intro cur hcur hrest hpw
      rw [List.pairwise_cons] at hpw
      obtain ⟨hsep, hpw'⟩ := hpw
      have hcs : cur.stop < s.start := hsep s (List.mem_cons_self _ _)
      have hss : s.start < s.stop := hrest s (List.mem_cons_self _ _)
      have hrest' : ∀ t ∈ rest', t.start < t.stop := fun t ht =>
        hrest t (List.mem_cons_of_mem _ ht)
      rw [mergeAux]
      by_cases hc : s.start - cur.stop ≤ gap
      · rw [if_pos hc]
        refine ih ⟨cur.start, s.stop⟩ ?_ hrest' ?_
        · simp only
          calc cur.start < cur.stop := hcur
            _ < s.start := hcs
            _ < s.stop := hss
        · rw [List.pairwise_cons]
          rw [List.pairwise_cons] at hpw'
          exact ⟨fun t ht => hpw'.1 t ht, hpw'.2⟩
      · rw [if_neg hc]
        have hmerge := ih s hss hrest' hpw'
        constructor
        · rw [List.pairwise_cons]
          refine ⟨?_, hmerge.1⟩
          intro u hu
          rcases mergeAux_start_mem gap rest' s u hu with h | ⟨t, ht, hts⟩
          · unfold SepBy
            rw [h]
            exact hcs
          · unfold SepBy
            rw [hts]
            exact hsep t (List.mem_cons_of_mem _ ht)
        · intro u hu
          rw [List.mem_cons] at hu
          rcases hu with hu | hu
          · rw [hu]; exact hcur
          · exact hmerge.2 u hu

lemma merge_close_good (segments : List Segment) (gap : ℚ)
    (hwf : ∀ s ∈ segments, s.start < s.stop)
    (hpw : segments.Pairwise SepBy) :
    (merge_close_segments segments gap).Pairwise SepBy ∧
      ∀ u ∈ merge_close_segments segments gap, u.start < u.stop := by
  match segments with
  | [] => simp [merge_close_segments]
  | s :: rest =>
      rw [merge_close_segments]
      exact mergeAux_good gap rest s (hwf s (List.mem_cons_self _ _))
        (fun t ht => hwf t (List.mem_cons_of_mem _ ht)) hpw

lemma merged_starts_strict (segments : List Segment) (gap : ℚ)
    (hwf : ∀ s ∈ segments, s.start < s.stop)
    (hpw : segments.Pairwise SepBy) :
    (merge_close_segments segments gap).Pairwise
      (fun s t => s.start < t.start) := by
  obtain ⟨h1, h2⟩ := merge_close_good segments gap hwf hpw
  refine List.Pairwise.imp_of_mem ?_ h1
  intro s t hs ht hsep
  calc s.start < s.stop := h2 s hs
    _ < t.start := hsep

lemma map_getD {α β : Type} (f : α → β) (l : List α) (i : ℕ) (d : β) (d' : α)
    (hi : i < l.length) : (l.map f).getD i d = f (l.getD i d') := by
  induction l generalizing i with
  | nil => simp at hi
  | cons a l' ih =>
      cases i with
      | zero => simp
      | succ i' =>
          simp only [List.map_cons, List.getD_cons_succ]
          exact ih i' (by simp at hi; omega)

lemma range_getD (n i : ℕ) (hi : i < n) : (List.range n).getD i 0 = i := by
  rw [List.getD, List.get?_eq_getElem?, List.getElem?_range hi]
  rfl

lemma smooth_getD (positions : List (Option (ℚ × ℚ))) (w i : ℕ)
    (hi : i < positions.length) :
    (smooth_positions positions w).getD i none = smoothAt positions w i := by
  rw [smooth_positions, map_getD _ _ _ _ 0 (by simpa using hi),
    range_getD _ _ hi]

lemma smooth_length (positions : List (Option (ℚ × ℚ))) (w : ℕ) :
    (smooth_positions positions w).length = positions.length := by
  simp [smooth_positions]

lemma self_mem_validWindow (positions : List (Option (ℚ × ℚ))) (w i : ℕ)
    (pos : ℚ × ℚ) (hi : i < positions.length)
    (hp : positions.getD i none = some pos) :
    pos ∈ validWindow positions i w := by
  rw [validWindow, List.mem_filterMap]
  refine ⟨i, ?_, hp⟩
  have hs : i - w / 2 ≤ i := Nat.sub_le _ _
  have he : i < min positions.length (i + w / 2 + 1) := by omega
  rw [List.mem_range'_1]
  omega

lemma selectBestAux_some (key : BoundingBox → ℚ) (min_area_ratio : ℚ) :
    ∀ (boxes : List BoundingBox) (best : Option (BoundingBox × ℚ))
      (b : BoundingBox),
      selectBestAux key min_area_ratio boxes best = some b →
      best ≠ none ∨ ∃ x ∈ boxes, is_valid_detection x min_area_ratio = true := by
  intro boxes
  induction boxes with
  | nil =>
      intro best b hb
      left
      rw [selectBestAux.eq_def] at hb
      intro hnone
      rw [hnone] at hb
      simp at hb
  | cons x rest ih =>
      intro best b hb
      simp only [selectBestAux] at hb
      by_cases hv : is_valid_detection x min_area_ratio
      · right
        exact ⟨x, List.mem_cons_self _ _, hv⟩
      · rw [if_neg hv] at hb
        rcases ih best b hb with h | ⟨y, hy, hyv⟩
        · left; exact h
        · right; exact ⟨y, List.mem_cons_of_mem _ hy, hyv⟩

lemma runs_allfalse :
    ∀ (mask : List Bool), (∀ b ∈ mask, b = false) →
      ∀ k, runsAux mask k = [] := by
  intro mask
  induction mask with
  | nil => intro _ k; simp [runsAux]
  | cons b rest ih =>
      intro h k
      have hb : b = false := h b (List.mem_cons_self _ _)
      subst hb
      simp only [runsAux]
      exact ih (fun x hx => h x (List.mem_cons_of_mem _ hx)) (k + 1)

lemma smooth_mean_of_some (positions : List (Option (ℚ × ℚ))) (w i : ℕ)
    (pos : ℚ × ℚ) (hi : i < positions.length)
    (hp : positions.getD i none = some pos) :
    (smooth_positions positions w).getD i none
      = some (meanQ (validWindow positions i w)) := by
  rw [smooth_getD positions w i hi]
  simp only [smoothAt, hp]
  cases hv : validWindow positions i w with
  | nil =>
      exfalso
      have hmem := self_mem_validWindow positions w i pos hi hp
      rw [hv] at hmem
      simp at hmem
  | cons v vs => rfl

lemma pyInt_intCast (a : ℤ) : pyInt ((a : ℤ) : ℚ) = a := by
  rw [pyInt]
  split_ifs <;> simp

lemma clamp_coord_bounds (z : ℚ) (c o : ℤ) (hc : c ≤ o) :
    0 ≤ pyInt (if z < 0 then 0
        else if (o : ℚ) < z + (c : ℚ) then ((o - c : ℤ) : ℚ) else z) ∧
      pyInt (if z < 0 then 0
        else if (o : ℚ) < z + (c : ℚ) then ((o - c : ℤ) : ℚ) else z) + c ≤ o := by
  split_ifs with h1 h2
  · constructor
    · rw [show (0 : ℚ) = ((0 : ℤ) : ℚ) by norm_num, pyInt_intCast]
    · rw [show (0 : ℚ) = ((0 : ℤ) : ℚ) by norm_num, pyInt_intCast]
      omega
  · rw [pyInt_intCast]
    omega
  · push_neg at h1 h2
    rw [pyInt, if_pos h1]
    constructor
    · exact Int.floor_nonneg.mpr h1
    · have hfl : ((⌊z⌋ + c : ℤ) : ℚ) ≤ ((o : ℤ) : ℚ) := by
        push_cast
        linarith [Int.floor_le z]
      exact_mod_cast hfl

/-- C1. Crop Rectangle Placer containment: for every object center
`(cx, cy)`, anchor ratios in `[0, 1]`, and crop size with `crop_w ≤ orig_w`
and `crop_h ≤ orig_h`, the boundary-corrected placement satisfies
`0 ≤ x1`, `0 ≤ y1`, `x1 + crop_w ≤ orig_w`, `y1 + crop_h ≤ orig_h`,
including after the final integer truncation of `x1` and `y1`. -/
theorem crop_position_containment (cx cy : ℚ) (crop_w crop_h orig_w orig_h : ℤ)
    (config : CroppingConfig)
    (hh0 : 0 ≤ config.landmark_horizontal_ratio)
    (hh1 : config.landmark_horizontal_ratio ≤ 1)
    (hv0 : 0 ≤ config.landmark_vertical_ratio)
    (hv1 : config.landmark_vertical_ratio ≤ 1)
    (hw : crop_w ≤ orig_w) (hh : crop_h ≤ orig_h) :
    0 ≤ (calculate_crop_position cx cy crop_w crop_h orig_w orig_h config).1 ∧
    0 ≤ (calculate_crop_position cx cy crop_w crop_h orig_w orig_h config).2.1 ∧
    (calculate_crop_position cx cy crop_w crop_h orig_w orig_h config).1
      + crop_w ≤ orig_w ∧
    (calculate_crop_position cx cy crop_w crop_h orig_w orig_h config).2.1
      + crop_h ≤ orig_h := by
  have hx := clamp_coord_bounds
    (cx - (crop_w : ℚ) * config.landmark_horizontal_ratio) crop_w orig_w hw
  have hy := clamp_coord_bounds
    (cy - (crop_h : ℚ) * config.landmark_vertical_ratio) crop_h orig_h hh
  simp only [calculate_crop_position, apply_ite Prod.fst] at *
  exact ⟨hx.1, hy.1, hx.2, hy.2⟩

/-- C1 witness: the containment theorem instantiated at a concrete frame. -/
theorem crop_position_containment_witness :
    ((0 : ℚ) ≤ 1 / 2 ∧ (1 / 2 : ℚ) ≤ 1 ∧ (4 : ℤ) ≤ 10) ∧
    (0 ≤ (calculate_crop_position 9 (-3) 4 4 10 10 ⟨1 / 2, 1 / 2⟩).1 ∧
      0 ≤ (calculate_crop_position 9 (-3) 4 4 10 10 ⟨1 / 2, 1 / 2⟩).2.1 ∧
      (calculate_crop_position 9 (-3) 4 4 10 10 ⟨1 / 2, 1 / 2⟩).1 + 4 ≤ 10 ∧
      (calculate_crop_position 9 (-3) 4 4 10 10 ⟨1 / 2, 1 / 2⟩).2.1 + 4 ≤ 10) :=
  ⟨⟨by norm_num, by norm_num, by norm_num⟩,
    crop_position_containment 9 (-3) 4 4 10 10 ⟨1 / 2, 1 / 2⟩ (by norm_num)
      (by norm_num) (by norm_num) (by norm_num) (by norm_num) (by norm_num)⟩

/-- C4 counterexample: the claimed formula
`effectiveFps = origFps / round(origFps / fpsSample)` fails at
`origFps = 10, fpsSample = 30`: `round(10 / 30) = 0`, so the formula is a
division by zero (`= 0` under the `ℚ` convention), while the code returns
`10` (it clamps the step to at least 1). -/
theorem effective_fps_formula_counterexample :
    (get_effective_fps 10 30).2 = 10 ∧
      (get_effective_fps 10 30).2 ≠ (10 : ℚ) / ((pyRound ((10 : ℚ) / 30) : ℤ) : ℚ) := by
  have hr : pyRound ((1 : ℚ) / 3) = 0 := by
    rw [pyRound]
    norm_num
  have h13 : (10 : ℚ) / 30 = 1 / 3 := by norm_num
  constructor
  · rw [get_effective_fps]
    norm_num [h13, hr]
  · rw [get_effective_fps]
    norm_num [h13, hr]

/-- C4 amended: for `fpsSample > 0`, the effective fps equals
`origFps / max(1, round(origFps / fpsSample))` when `origFps > 0` (the code
clamps the rounded step to at least 1 before dividing), and equals
`fpsSample` itself when `origFps` is not positive (unknown/zero). -/
theorem effective_fps_amended (original_fps sampling_fps : ℚ)
    (hs : 0 < sampling_fps) :
    (0 < original_fps →
      (get_effective_fps original_fps sampling_fps).2
        = original_fps / ((max 1 (pyRound (original_fps / sampling_fps)) : ℤ) : ℚ)) ∧
    (original_fps ≤ 0 →
      (get_effective_fps original_fps sampling_fps).2 = sampling_fps) := by
  constructor
  · intro h
    rw [get_effective_fps, if_pos h]
  · intro h
    rw [get_effective_fps, if_neg (by linarith)]

/-- C4 witness: the amended statement instantiated at `origFps = 30,
fpsSample = 12` (step `max(1, round(2.5)) = 2`, effective fps `15`) and at
`origFps = 0`. -/
theorem effective_fps_amended_witness :
    (0 : ℚ) < 12 ∧
    ((0 : ℚ) < 30 →
      (get_effective_fps 30 12).2
        = (30 : ℚ) / ((max 1 (pyRound ((30 : ℚ) / 12)) : ℤ) : ℚ)) ∧
    ((0 : ℚ) < 12 ∧ ((0 : ℚ) ≤ 0 → (get_effective_fps 0 12).2 = 12)) :=
  ⟨by norm_num, (effective_fps_amended 30 12 (by norm_num)).1,
    by norm_num, (effective_fps_amended 0 12 (by norm_num)).2⟩

/-- C7. Auto-zoom bounds: for every non-empty `sizes` input (including
all-`None` inputs, where the `0.5` fallback is in range) and every modelled
square root, the resolver returns a ratio in `[0.2, 0.9]`; and the Position
Smoother preserves absence (`None` entries stay `None`), so absent frames
feed this path untouched. -/
theorem auto_zoom_bounds (sqrtFn : ℚ → ℚ) (sizes : List (Option (ℚ × ℚ)))
    (target_ratio : ℚ) (hne : sizes ≠ []) :
    (1 / 5 ≤ calculate_auto_zoom_ratio sqrtFn sizes target_ratio ∧
      calculate_auto_zoom_ratio sqrtFn sizes target_ratio ≤ 9 / 10) ∧
    ∀ (positions : List (Option (ℚ × ℚ))) (w i : ℕ), i < positions.length →
      positions.getD i none = none →
      (smooth_positions positions w).getD i none = none := by
  constructor
  · rw [calculate_auto_zoom_ratio]
    cases h : sizes.filterMap (fun s => s.map (fun wh => wh.1 * wh.2)) with
    | nil => norm_num
    | cons a rest =>
        constructor
        · exact le_max_left _ _
        · exact max_le (by norm_num) (min_le_left _ _)
  · intro positions w i hi hp
    rw [smooth_getD positions w i hi, smoothAt, hp]

/-- C7 witness: bounds at a concrete all-`None` input (fallback `0.5`) and
absence preservation at a concrete position list. -/
theorem auto_zoom_bounds_witness :
    ([none, none] : List (Option (ℚ × ℚ))) ≠ [] ∧
    (1 / 5 ≤ calculate_auto_zoom_ratio (fun q => q) [none, none] (1 / 4) ∧
      calculate_auto_zoom_ratio (fun q => q) [none, none] (1 / 4) ≤ 9 / 10) ∧
    (smooth_positions [some (1, 1), none] 3).getD 1 none = none :=
  ⟨by decide,
    (auto_zoom_bounds (fun q => q) [none, none] (1 / 4) (by decide)).1,
    (auto_zoom_bounds (fun q => q) [none, none] (1 / 4) (by decide)).2
      [some (1, 1), none] 3 1 (by decide) (by decide)⟩

/-- C8. Duration Clamper postcondition: for `duration ≥ 0` every output
segment satisfies `0 ≤ start < stop ≤ duration`; dropping the degenerate
segments preserves relative order (the output is a sublist of the clamped
input, in order). -/
theorem clamp_segments_postcondition (segments : List Segment) (duration : ℚ)
    (hd : 0 ≤ duration) :
    (∀ s ∈ clamp_segments segments duration,
      0 ≤ s.start ∧ s.start < s.stop ∧ s.stop ≤ duration) ∧
    (clamp_segments segments duration).Sublist
      (segments.map (fun s =>
        ⟨max 0 (min s.start duration), max 0 (min s.stop duration)⟩)) := by
  induction segments with
  | nil => simp [clamp_segments]
  | cons s rest ih =>
      rw [clamp_segments]
      simp only [List.map_cons]
      by_cases hk : max 0 (min s.start duration) < max 0 (min s.stop duration)
      · rw [if_pos hk]
        constructor
        · intro u hu
          rw [List.mem_cons] at hu
          rcases hu with hu | hu
          · subst hu
            refine ⟨le_max_left _ _, hk, ?_⟩
            exact max_le hd (min_le_right _ _)
          · exact ih.1 u hu
        · exact ih.2.cons₂ _
      · rw [if_neg hk]
        exact ⟨ih.1, ih.2.cons _⟩

/-- C8 witness: the clamp postcondition at a concrete list containing
out-of-range, inverted, and valid segments. -/
theorem clamp_segments_postcondition_witness :
    (0 : ℚ) ≤ 10 ∧
    (∀ s ∈ clamp_segments [⟨-1, 5⟩, ⟨3, 2⟩, ⟨6, 20⟩] (10 : ℚ),
      0 ≤ s.start ∧ s.start < s.stop ∧ s.stop ≤ 10) ∧
    (clamp_segments [⟨-1, 5⟩, ⟨3, 2⟩, ⟨6, 20⟩] (10 : ℚ)).Sublist
      (([⟨-1, 5⟩, ⟨3, 2⟩, ⟨6, 20⟩] : List Segment).map (fun s =>
        ⟨max 0 (min s.start 10), max 0 (min s.stop 10)⟩)) :=
  ⟨by norm_num,
    (clamp_segments_postcondition [⟨-1, 5⟩, ⟨3, 2⟩, ⟨6, 20⟩] 10 (by norm_num)).1,
    (clamp_segments_postcondition [⟨-1, 5⟩, ⟨3, 2⟩, ⟨6, 20⟩] 10 (by norm_num)).2⟩

/-- C2. Filter-then-merge ordering: every segment the merge stage sees has
already passed the minimum-length filter (`duration ≥ minKeepSec`); in
particular, for the raw segments `(0.1, 0.2)` and `(0.25, 0.3)` with
`minKeepSec = 0.15` and `mergeGapSec = 0.1`, both are dropped and the
remaining stages emit no segment derived from them, for any padding. -/
theorem filter_then_merge_ordering :
    (∀ (segments : List Segment) (min_keep_sec : ℚ) (s : Segment),
      s ∈ filter_short_segments segments min_keep_sec →
      min_keep_sec ≤ s.stop - s.start) ∧
    ∀ pad_sec : ℚ,
      add_padding (merge_close_segments
        (filter_short_segments [⟨1 / 10, 2 / 10⟩, ⟨25 / 100, 3 / 10⟩]
          (15 / 100)) (1 / 10)) pad_sec = [] := by
  constructor
  · intro segs mk s hs
    exact (filter_short_mem segs mk s hs).2
  · intro pad
    have hf : filter_short_segments [⟨1 / 10, 2 / 10⟩, ⟨25 / 100, 3 / 10⟩]
        (15 / 100) = [] := by
      norm_num [filter_short_segments]
    rw [hf, merge_close_segments, add_padding]
    rfl

/-- C2 witness: the filter guarantee at a concrete segment that passes the
filter, and the concrete two-short-segments pipeline with zero padding. -/
theorem filter_then_merge_ordering_witness :
    (⟨0, 1⟩ : Segment) ∈ filter_short_segments [⟨0, 1⟩] 1 ∧
    (1 : ℚ) ≤ (Segment.mk 0 1).stop - (Segment.mk 0 1).start ∧
    add_padding (merge_close_segments
      (filter_short_segments [⟨1 / 10, 2 / 10⟩, ⟨25 / 100, 3 / 10⟩]
        (15 / 100)) (1 / 10)) 0 = [] :=
  ⟨by norm_num [filter_short_segments],
    filter_then_merge_ordering.1 [⟨0, 1⟩] 1 ⟨0, 1⟩
      (by norm_num [filter_short_segments]),
    filter_then_merge_ordering.2 0⟩

/-- C3. Run-length decode correctness: every maximal run of `true` at
indices `[i, j)` becomes the raw segment `(i / fps, j / fps)`; the concrete
mask `[F,T,T,F,T,F,F,T,T,T]` at `fps = 10` with all shaping parameters zero
yields exactly `[(0.1, 0.3), (0.4, 0.5), (0.7, 1.0)]`; and an all-false mask
yields the empty list. -/
theorem run_length_decode_correct :
    (∀ (mask : List Bool) (fps : ℚ), 0 < fps → ∀ i j : ℕ, IsMaxRun mask i j →
      (⟨(i : ℚ) / fps, (j : ℚ) / fps⟩ : Segment)
        ∈ convert_mask_to_raw_segments mask fps) ∧
    create_segments_from_mask
        [false, true, true, false, true, false, false, true, true, true]
        10 0 0 0
      = [⟨1 / 10, 3 / 10⟩, ⟨4 / 10, 5 / 10⟩, ⟨7 / 10, 1⟩] ∧
    ∀ (mask : List Bool) (fps min_keep_sec pad_sec merge_gap_sec : ℚ),
      (∀ b ∈ mask, b = false) →
      create_segments_from_mask mask fps min_keep_sec pad_sec merge_gap_sec
        = [] := by
  refine ⟨?_, ?_, ?_⟩
  · intro mask fps _ i j hrun
    have hmem := runs_mem_of_isMaxRun mask.length mask le_rfl 0 i j hrun
    rw [convert_mask_to_raw_segments, List.mem_map]
    exact ⟨(i, j), by simpa using hmem, rfl⟩
  · norm_num [create_segments_from_mask, convert_mask_to_raw_segments,
      runsAux, countLeading, filter_short_segments, merge_close_segments,
      mergeAux, add_padding, Segment.mk.injEq]
  · intro mask fps mk ps gs hall
    rw [create_segments_from_mask, convert_mask_to_raw_segments,
      runs_allfalse mask hall 0]
    rfl

/-- C3 witness: the maximal run `[1, 2)` of `[F, T]` at `fps = 1` produces
the raw segment `(1, 2)`. -/
theorem run_length_decode_correct_witness :
    ((0 : ℚ) < 1 ∧ IsMaxRun [false, true] 1 2) ∧
    (⟨(1 : ℚ) / 1, (2 : ℚ) / 1⟩ : Segment)
      ∈ convert_mask_to_raw_segments [false, true] 1 := by
  have hmr : IsMaxRun [false, true] 1 2 := by
    refine ⟨by omega, by simp, ?_, ?_, ?_⟩
    · intro t h1 h2
      have ht : t = 1 := by omega
      subst ht
      decide
    · right; decide
    · left; decide
  exact ⟨⟨by norm_num, hmr⟩,
    run_length_decode_correct.1 [false, true] 1 (by norm_num) 1 2 hmr⟩

/-- C5 counterexample: the claim as stated fails — with mask `[T, F, T]` at
`fps = 1`, `minKeepSec = 0`, `padSec = 2`, `mergeGapSec = 0` the padded
output is `[(0, 3), (0, 5)]`, whose starts both hit the `max(0, ·)` floor,
so the final list is not strictly increasing by start. -/
theorem padded_starts_not_strict_counterexample :
    ¬ (create_segments_from_mask [true, false, true] 1 0 2 0).Pairwise
      (fun s t => s.start < t.start) := by
  norm_num [create_segments_from_mask, convert_mask_to_raw_segments, runsAux,
    countLeading, filter_short_segments, merge_close_segments, mergeAux,
    add_padding, List.Pairwise]

/-- C5 amended: for every mask, `fps > 0` and non-negative shaping
parameters, the final (post-padding) segment list is non-decreasing by start,
and the pre-padding (post-merge) list is strictly increasing by start (the
`max(0, start - padSec)` floor of the padding stage can collapse distinct
starts to `0`, so only non-strict monotonicity survives padding). -/
theorem segment_output_ordering_amended (mask : List Bool)
    (fps min_keep_sec pad_sec merge_gap_sec : ℚ) (hfps : 0 < fps)
    (hmk : 0 ≤ min_keep_sec) (hps : 0 ≤ pad_sec) (hgs : 0 ≤ merge_gap_sec) :
    (create_segments_from_mask mask fps min_keep_sec pad_sec
      merge_gap_sec).Pairwise (fun s t => s.start ≤ t.start) ∧
    (merge_close_segments (filter_short_segments
        (convert_mask_to_raw_segments mask fps) min_keep_sec)
      merge_gap_sec).Pairwise (fun s t => s.start < t.start) := by
  have hraw := raw_pairwise mask fps hfps
  have hwf := raw_wellformed mask fps hfps
  have hfil_pw : (filter_short_segments (convert_mask_to_raw_segments mask fps)
      min_keep_sec).Pairwise SepBy := hraw.filter _
  have hfil_wf : ∀ s ∈ filter_short_segments
      (convert_mask_to_raw_segments mask fps) min_keep_sec,
      s.start < s.stop := fun s hs =>
    hwf s (filter_short_mem _ _ s hs).1
  have hstrict := merged_starts_strict _ merge_gap_sec hfil_wf hfil_pw
  refine ⟨?_, hstrict⟩
  rw [create_segments_from_mask, add_padding, List.pairwise_map]
  refine hstrict.imp ?_
  intro s t h
  simp only
  exact max_le_max (le_refl 0) (by linarith)

/-- C5 witness: the amended ordering at the concrete mask `[T, F, T]`. -/
theorem segment_output_ordering_amended_witness :
    ((0 : ℚ) < 1 ∧ (0 : ℚ) ≤ 0 ∧ (0 : ℚ) ≤ 2) ∧
    (create_segments_from_mask [true, false, true] 1 0 2 0).Pairwise
      (fun s t => s.start ≤ t.start) ∧
    (merge_close_segments (filter_short_segments
        (convert_mask_to_raw_segments [true, false, true] 1) 0) 0).Pairwise
      (fun s t => s.start < t.start) := by
  have h := segment_output_ordering_amended [true, false, true] 1 0 2 0
    (by norm_num) le_rfl (by norm_num) le_rfl
  exact ⟨⟨by norm_num, le_rfl, by norm_num⟩, h.1, h.2⟩

/-- C6 counterexample: for `windowSize = 3` and
`positions = [(0,0), (0,0), (2,2)]` (a detection `v = (0,0)` at index 1),
the smoothed value at index 1 is the mean of all three window values,
`(2/3, 2/3)`, not the mean `(1, 1)` of the two neighbors alone, refuting the
claim's "in particular" instance. -/
theorem smoother_example_counterexample :
    (smooth_positions [some (0, 0), some (0, 0), some (2, 2)] 3).getD 1 none
        = some (2 / 3, 2 / 3) ∧
      (smooth_positions [some (0, 0), some (0, 0), some (2, 2)] 3).getD 1 none
        ≠ some (1, 1) := by
  have hmean := smooth_mean_of_some [some (0, 0), some (0, 0), some (2, 2)]
    3 1 (0, 0) (by decide) (by decide)
  have hw : validWindow [some (0, 0), some (0, 0), some (2, 2)] 1 3
      = [(0, 0), (0, 0), (2, 2)] := by decide
  rw [hmean, hw]
  constructor
  · norm_num [meanQ]
  · norm_num [meanQ, Prod.ext_iff]

/-- C6 amended: for each index `i` where `positions[i]` is `some pos`, the
smoothed output at `i` is the componentwise arithmetic mean of exactly the
non-`None` values in the clipped window — a set that includes `pos` itself —
so for `windowSize = 3` and `positions = [(0,0), v, (2,2)]` the smoothed
value at index 1 is the mean of all three values, not of the two neighbors
alone. -/
theorem smoother_local_average_amended (positions : List (Option (ℚ × ℚ)))
    (w i : ℕ) (pos : ℚ × ℚ) (hi : i < positions.length)
    (hp : positions.getD i none = some pos) :
    (smooth_positions positions w).getD i none
        = some (meanQ (validWindow positions i w)) ∧
      validWindow [some (0, 0), some (0, 0), some (2, 2)] 1 3
        = [(0, 0), (0, 0), (2, 2)] :=
  ⟨smooth_mean_of_some positions w i pos hi hp, by decide⟩

/-- C6 witness: the amended statement instantiated at index 1 of
`[(0,0), (0,0), (2,2)]` with `windowSize = 3`. -/
theorem smoother_local_average_amended_witness :
    (1 < ([some (0, 0), some (0, 0), some (2, 2)]
        : List (Option (ℚ × ℚ))).length ∧
      ([some (0, 0), some (0, 0), some (2, 2)]
        : List (Option (ℚ × ℚ))).getD 1 none = some (0, 0)) ∧
    (smooth_positions [some (0, 0), some (0, 0), some (2, 2)] 3).getD 1 none
      = some (meanQ (validWindow [some (0, 0), some (0, 0), some (2, 2)] 1 3)) :=
  ⟨⟨by decide, by decide⟩,
    (smoother_local_average_amended [some (0, 0), some (0, 0), some (2, 2)]
      3 1 (0, 0) (by decide) (by decide)).1⟩

/-- C9. Position series refine the presence mask: if the best-detection
selection returns a box, some box in the frame passes the same validity
threshold and the frame's mask bit is true; hence over whole observation
sequences, a frame with a non-`None` position always has a true mask bit. -/
theorem positions_refine_mask (key : BoundingBox → ℚ) (min_area_ratio : ℚ) :
    (∀ (boxes : List BoundingBox) (b : BoundingBox),
      select_best_detection key min_area_ratio boxes = some b →
      (∃ x ∈ boxes, is_valid_detection x min_area_ratio = true) ∧
        maskBit min_area_ratio (some boxes) = true) ∧
    ∀ (frames : List FrameObservation) (i : ℕ), i < frames.length →
      (detect_positions key min_area_ratio frames).getD i none ≠ none →
      (detect_mask min_area_ratio frames).getD i false = true := by
  have hcore : ∀ (boxes : List BoundingBox) (b : BoundingBox),
      select_best_detection key min_area_ratio boxes = some b →
      (∃ x ∈ boxes, is_valid_detection x min_area_ratio = true) ∧
        maskBit min_area_ratio (some boxes) = true := by
    intro boxes b hb
    rw [select_best_detection] at hb
    rcases selectBestAux_some key min_area_ratio boxes none b hb with h | hex
    · exact absurd rfl h
    · refine ⟨hex, ?_⟩
      rw [maskBit, List.any_eq_true]
      exact hex
  refine ⟨hcore, ?_⟩
  intro frames i hi hpos
  rw [detect_positions, map_getD _ _ _ _ none hi] at hpos
  rw [detect_mask, map_getD _ _ _ _ none hi]
  cases hobs : frames.getD i none with
  | none => rw [hobs] at hpos; simp [positionBit] at hpos
  | some boxes =>
      rw [hobs] at hpos
      simp only [positionBit] at hpos
      cases hsel : select_best_detection key min_area_ratio boxes with
      | none => rw [hsel] at hpos; simp at hpos
      | some b => exact (hcore boxes b hsel).2

/-- C9 witness: a frame with one valid box has a selected position and a
true mask bit. -/
theorem positions_refine_mask_witness :
    (1 < 2 ∧ (detect_positions BoundingBox.area 0
        [none, some [⟨0, 0, 1, 1, 1, 1, 1, 1 / 2, 1 / 2⟩]]).getD 1 none
      ≠ none) ∧
    (detect_mask 0 [none, some [⟨0, 0, 1, 1, 1, 1, 1, 1 / 2, 1 / 2⟩]]).getD
      1 false = true :=
  ⟨⟨by decide, by decide⟩,
    (positions_refine_mask BoundingBox.area 0).2
      [none, some [⟨0, 0, 1, 1, 1, 1, 1, 1 / 2, 1 / 2⟩]] 1 (by decide)
      (by decide)⟩

/-- C10. Implicit smoother safety: the clipped window at a non-`None` index
always contains that index's own value, so the collected valid set is never
empty, the no-valid-neighbor fallback is unreachable (the output is always
the mean branch, which incorporates the index's own value), and the output
length equals the input length. -/
theorem smoother_window_nonempty :
    (∀ (positions : List (Option (ℚ × ℚ))) (w : ℕ),
      (smooth_positions positions w).length = positions.length) ∧
    ∀ (positions : List (Option (ℚ × ℚ))) (w i : ℕ) (pos : ℚ × ℚ),
      1 ≤ w → i < positions.length → positions.getD i none = some pos →
      pos ∈ validWindow positions i w ∧ validWindow positions i w ≠ [] ∧
        (smooth_positions positions w).getD i none
          = some (meanQ (validWindow positions i w)) := by
  refine ⟨smooth_length, ?_⟩
  intro positions w i pos _ hi hp
  have hmem := self_mem_validWindow positions w i pos hi hp
  refine ⟨hmem, ?_, smooth_mean_of_some positions w i pos hi hp⟩
  intro hnil
  rw [hnil] at hmem
  simp at hmem

/-- C10 witness: the safety statement at index 0 of a singleton list with
`windowSize = 1`. -/
theorem smoother_window_nonempty_witness :
    (1 ≤ 1 ∧ 0 < ([some ((5 : ℚ), (7 : ℚ))]
        : List (Option (ℚ × ℚ))).length ∧
      ([some ((5 : ℚ), (7 : ℚ))] : List (Option (ℚ × ℚ))).getD 0 none
        = some (5, 7)) ∧
    (((5 : ℚ), (7 : ℚ)) ∈ validWindow [some (5, 7)] 0 1 ∧
      validWindow [some (5, 7)] 0 1 ≠ [] ∧
      (smooth_positions [some (5, 7)] 1).getD 0 none
        = some (meanQ (validWindow [some (5, 7)] 0 1))) :=
  ⟨⟨by decide, by decide, by decide⟩,
    smoother_window_nonempty.2 [some (5, 7)] 1 0 (5, 7) (by decide)
      (by decide) (by decide)⟩
